import Mathlib

/-!
Verification of the latency-aggregation engine of `gst-log-parser`
(`examples/latency.rs`): a shallow embedding of the key normalizer, the
latency accumulator, the event classifier/filter loop and the report
renderer, together with theorems settling the specification's claims.

Strings are modelled as lists of characters (`Str`); Rust `String`
ordering is byte-lexicographic on UTF-8, which coincides with the
codepoint-lexicographic ordering used here.  The regex `\d+$` used by
`normalize_name` is modelled as stripping the maximal trailing run of
decimal digits.  Machine integers (`u64`) are modelled as `Nat` reduced
modulo `2 ^ 64` where the code performs `u64` arithmetic.  A Rust panic
(`expect` / `unwrap` on a missing value, i.e. a fatal error) is modelled
by returning `some p` for a `PanicKind p` alongside the accumulator
state at the moment of the panic.
-/

namespace GstLatency

/-- Rust `String` / `&str`, modelled as a list of characters. -/
abbrev Str := List Char

/-- `u64::MAX + 1`: the modulus of `u64` arithmetic. -/
def u64size : Nat := 2 ^ 64

/-! ## Key Normalizer (`Latency::normalize_name`) -/

/-- Prepend a character to the first segment of a split result. -/
def consHead (c : Char) : List Str → List Str
  | [] => [[c]]
  | p :: ps => (c :: p) :: ps

/-- Rust `name.split('-')`: split a string at every `'-'`.  Like Rust's
`split`, the result is never empty (splitting the empty string yields
`[[]]`). -/
def splitOnDash : Str → List Str
  | [] => [[]]
  | c :: cs =>
    if c = '-' then [] :: splitOnDash cs
    else consHead c (splitOnDash cs)

/-- Rust `parts.join("-")`: interleave `'-'` between the segments. -/
def joinDash : List Str → Str
  | [] => []
  | [p] => p
  | p :: q :: ps => p ++ '-' :: joinDash (q :: ps)

/-- The effect of `Regex::new(r"\d+$").replace(s, "")`: remove the maximal
trailing run of decimal digits from `s`. -/
def stripTrailingDigits (s : Str) : Str :=
  ((s.reverse.dropWhile Char.isDigit)).reverse

/-- `Latency::normalize_name`: split on `'-'`, strip the trailing digit
run from the first segment, and (when there is more than one segment)
rejoin `first ++ "-" ++ rest.join("-")`. -/
def normalize_name (name : Str) : Str :=
  match splitOnDash name with
  | [] => []
  | p :: ps =>
    let first_part := stripTrailingDigits p
    if ps = [] then first_part
    else first_part ++ '-' :: joinDash ps

/-! ## Latency Accumulator (`Count`, `Element`, `Latency`) -/

/-- `Count { n: u64, total: ClockTime }` with `ClockTime` carrying `u64`
nanoseconds. -/
structure Count where
  n : Nat
  total : Nat
deriving DecidableEq, Repr

/-- `Count::new()`: zero observations, zero total. -/
def Count.new : Count :=
  { n := 0, total := 0 }

/-- `Count::mean()`: `total.nseconds() / n` (`u64` integer division).
In Rust this panics when `n = 0`; Lean's `Nat` division returns `0`
there, and the invariant theorems show rendering never reaches that
case. -/
def Count.mean (c : Count) : Nat :=
  c.total / c.n

/-- One recording step on a stat: `count.n += 1; count.total +=
ClockTime::from_nseconds(new_time)`, in `u64` arithmetic. -/
def Count.update (c : Count) (new_time : Nat) : Count :=
  { n := (c.n + 1) % u64size, total := (c.total + new_time) % u64size }

/-- `Element { name: String }`. -/
structure Element where
  name : Str
deriving DecidableEq, Repr

/-- `Latency { element_totals: HashMap<Element, Count> }`, the map
modelled as an association list with unique keys. -/
structure Latency where
  element_totals : List (Element × Count)
deriving DecidableEq, Repr

/-- `Latency::new()`. -/
def Latency.new : Latency :=
  { element_totals := [] }

/-- `HashMap` lookup on the association list. -/
def lookupCount : List (Element × Count) → Element → Option Count
  | [], _ => none
  | (e', c) :: rest, e => if e' = e then some c else lookupCount rest e

/-- `Latency::insert_or_get_count`: `element_totals.entry(element)
.or_insert_with(Count::new)` — inserts a fresh zero stat when the key is
absent, otherwise leaves the map unchanged. -/
def Latency.insert_or_get_count (l : Latency) (element : Element) : Latency :=
  match lookupCount l.element_totals element with
  | some _ => l
  | none => { element_totals := l.element_totals ++ [(element, Count.new)] }

/-- `Latency::update_count`: `get_mut(&element).unwrap()` then
`n += 1; total += time`.  The `unwrap` panics when the key is absent,
modelled by `none`. -/
def Latency.update_count (l : Latency) (element : Element) (new_time : Nat) :
    Option Latency :=
  match lookupCount l.element_totals element with
  | none => none
  | some _ =>
    some { element_totals :=
      l.element_totals.map fun p =>
        if p.1 = element then (p.1, p.2.update new_time) else p }

/-! ## Structured entries (the external log-parsing collaborator's output) -/

/-- GStreamer debug levels (`gstreamer::DebugLevel`). -/
inductive DebugLevel where
  | noneLevel
  | error
  | warning
  | fixme
  | info
  | debug
  | logLevel
  | trace
  | memdump
deriving DecidableEq, Repr

/-- A typed field value of a GStreamer `Structure`: string or unsigned
integer. -/
inductive Value where
  | str (s : Str)
  | uint (n : Nat)
deriving DecidableEq, Repr

/-- A decoded GStreamer `Structure`: a name and named typed fields. -/
structure Structure where
  name : Str
  fields : List (Str × Value)
deriving DecidableEq, Repr

/-- Field lookup by name (first match). -/
def getField : List (Str × Value) → Str → Option Value
  | [], _ => none
  | (k', v) :: rest, k => if k' = k then some v else getField rest k

/-- `s.get::<String>(key)`: `some` only when the field exists with string
type. -/
def Structure.getStr (s : Structure) (k : Str) : Option Str :=
  match getField s.fields k with
  | some (Value.str v) => some v
  | _ => none

/-- `s.get::<u64>(key)`: `some` only when the field exists with unsigned
integer type. -/
def Structure.getUInt (s : Structure) (k : Str) : Option Nat :=
  match getField s.fields k with
  | some (Value.uint v) => some v
  | _ => none

/-- One parsed log entry, as handed over by `parse`: its category, its
debug level, and the result of `entry.message_to_struct()` (`none` when
the message does not decode to a structure). -/
structure Entry where
  category : Str
  level : DebugLevel
  message : Option Structure

/-- The command-line configuration `Opt`.  The compiled
`element-filter` regex is abstracted by its `is_match` predicate. -/
structure Opt where
  sort_by_element : Bool
  element_filter : Option (Str → Bool)
  total_element_view : Bool

/-- The panic sites of the processing loop (`expect` / `unwrap`). -/
inductive PanicKind where
  | missingElement
  | missingSrc
  | missingTime
  | unwrapNone
deriving DecidableEq, Repr

/-- `"GST_TRACER"`. -/
def gstTracerStr : Str := ['G', 'S', 'T', '_', 'T', 'R', 'A', 'C', 'E', 'R']

/-- `"element-latency"`. -/
def elementLatencyStr : Str :=
  ['e', 'l', 'e', 'm', 'e', 'n', 't', '-', 'l', 'a', 't', 'e', 'n', 'c', 'y']

/-- `"latency"`. -/
def latencyStr : Str := ['l', 'a', 't', 'e', 'n', 'c', 'y']

/-- `"element-reported-latency"`. -/
def elementReportedLatencyStr : Str :=
  ['e', 'l', 'e', 'm', 'e', 'n', 't', '-', 'r', 'e', 'p', 'o', 'r', 't', 'e',
   'd', '-', 'l', 'a', 't', 'e', 'n', 'c', 'y']

/-- `"element"`. -/
def elementFieldStr : Str := ['e', 'l', 'e', 'm', 'e', 'n', 't']

/-- `"src"`. -/
def srcFieldStr : Str := ['s', 'r', 'c']

/-- `"time"`. -/
def timeFieldStr : Str := ['t', 'i', 'm', 'e']

/-- The raw-key selection of the loop: `s.get::<String>("element")` when
`--sort-element` is set, `s.get::<String>("src")` otherwise. -/
def selectKey (opt : Opt) (s : Structure) : Option Str :=
  if opt.sort_by_element then s.getStr elementFieldStr else s.getStr srcFieldStr

/-- Key normalization step of the loop: applied only under
`--blanket-view` (`total_element_view`). -/
def normKey (opt : Opt) (k : Str) : Str :=
  if opt.total_element_view then normalize_name k else k

/-- The inclusion filter: `element_filter.is_match(&entry_key)` when a
pattern is configured, vacuously true otherwise. -/
def passesFilter (opt : Opt) (k : Str) : Bool :=
  match opt.element_filter with
  | some f => f k
  | none => true

/-! ## Event Classifier & Filter (the body of `main`'s loop) -/

/-- Processing of a single entry, mirroring `main`'s loop body including
the `category`/`level` pre-filter on the `parse` iterator.  Returns the
accumulator after the step together with `some p` when the step panics
(the accumulator component is then the state at the moment of the
panic). -/
def processEntry (opt : Opt) (l : Latency) (entry : Entry) :
    Latency × Option PanicKind :=
  if entry.category = gstTracerStr ∧ entry.level = DebugLevel.trace then
    match entry.message with
    | none => (l, none)
    | some s =>
      if s.name = elementLatencyStr then
        match selectKey opt s with
        | none =>
          (l, some (if opt.sort_by_element then PanicKind.missingElement
                    else PanicKind.missingSrc))
        | some rawKey =>
          let entry_key := normKey opt rawKey
          if passesFilter opt entry_key then
            let l1 := l.insert_or_get_count ⟨entry_key⟩
            match s.getUInt timeFieldStr with
            | none => (l1, some PanicKind.missingTime)
            | some time =>
              match l1.update_count ⟨entry_key⟩ time with
              | none => (l1, some PanicKind.unwrapNone)
              | some l2 => (l2, none)
          else (l, none)
      else (l, none)
  else (l, none)

/-- The whole processing loop: fold `processEntry` over the entry
stream, aborting at the first panic with the state at that moment. -/
def processLog (opt : Opt) : List Entry → Latency → Latency × Option PanicKind
  | [], l => (l, none)
  | e :: es, l =>
    match processEntry opt l e with
    | (l', none) => processLog opt es l'
    | (l', some p) => (l', some p)

/-! ## Report Renderer -/

/-- Rust `String::cmp`: lexicographic comparison (byte order on UTF-8
coincides with codepoint order). -/
def cmpStr : Str → Str → Ordering
  | [], [] => Ordering.eq
  | [], _ :: _ => Ordering.lt
  | _ :: _, [] => Ordering.gt
  | a :: as, b :: bs =>
    if a < b then Ordering.lt
    else if b < a then Ordering.gt
    else cmpStr as bs

/-- One insertion step of the stable ascending sort performed by
`sorted_by(|(a, _), (b, _)| a.name.cmp(&b.name))`. -/
def insertSorted (p : Element × Count) :
    List (Element × Count) → List (Element × Count)
  | [] => [p]
  | q :: qs =>
    if cmpStr p.1.name q.1.name = Ordering.gt then q :: insertSorted p qs
    else p :: q :: qs

/-- Sort the accumulator's entries ascending by element name. -/
def sortByName (l : List (Element × Count)) : List (Element × Count) :=
  l.foldr insertSorted []

/-- The rendered report, modelled as the ordered sequence of
`(key, mean)` lines printed after the `"Mean latency:"` header. -/
def renderPairs (l : Latency) : List (Str × Nat) :=
  (sortByName l.element_totals).map fun p => (p.1.name, p.2.mean)

/-! ## Derived definitions used in theorem statements -/

/-- The sequence of grouping keys currently in the accumulator. -/
def mapKeys (l : Latency) : List Str :=
  l.element_totals.map fun p => p.1.name

/-- The grouping key the classifier derives for an entry: defined (`some`)
exactly when the entry passes the category/level filter, decodes to an
`"element-latency"` structure, and carries its selected key field; the
raw key is normalized under `--blanket-view`. -/
def derivedKey (opt : Opt) (e : Entry) : Option Str :=
  if e.category = gstTracerStr ∧ e.level = DebugLevel.trace then
    match e.message with
    | some s =>
      if s.name = elementLatencyStr then (selectKey opt s).map (normKey opt)
      else none
    | none => none
  else none

/-- The specification's description of the normalizer (§4.1): split on
`'-'`, strip the trailing digit run from the first segment only, rejoin
all segments unchanged with `'-'`. -/
def normalizeSpec (s : Str) : Str :=
  match splitOnDash s with
  | [] => []
  | p :: ps => joinDash (stripTrailingDigits p :: ps)

/-- The (non-strict) name ordering used by the renderer's sort. -/
def nameLe (p q : Element × Count) : Prop :=
  cmpStr p.1.name q.1.name ≠ Ordering.gt

/-! ## Concrete scenario inputs -/

/-- `"queue0"`. -/
def queue0Str : Str := ['q', 'u', 'e', 'u', 'e', '0']

/-- `"queue"`. -/
def queueStr : Str := ['q', 'u', 'e', 'u', 'e']

/-- An `element-latency` entry whose `"src"` is `"queue0"` with the given
`"time"`. -/
def queueEntry (t : Nat) : Entry :=
  { category := gstTracerStr, level := DebugLevel.trace,
    message := some { name := elementLatencyStr,
                      fields := [(srcFieldStr, Value.str queue0Str),
                                 (timeFieldStr, Value.uint t)] } }

/-- Group by source, blanket view enabled, no filter (the end-to-end
scenario's configuration). -/
def blanketOpt : Opt :=
  { sort_by_element := false, element_filter := none,
    total_element_view := true }

/-- An `element-latency` structure carrying `"src"` but no `"time"`. -/
def noTimeStruct : Structure :=
  { name := elementLatencyStr, fields := [(srcFieldStr, Value.str queue0Str)] }

/-- An `element-latency` entry missing its `"time"` field. -/
def noTimeEntry : Entry :=
  { category := gstTracerStr, level := DebugLevel.trace,
    message := some noTimeStruct }

/-- A filter predicate matching only the literal `"queue"`. -/
def queueOnlyFilter : Str → Bool := fun k => decide (k = queueStr)

/-- A filter predicate matching only the literal `"x"`. -/
def xOnlyFilter : Str → Bool := fun k => decide (k = ['x'])

/-- Group by source, no normalization, with a filter `"queue0"` fails. -/
def xFilterOpt : Opt :=
  { sort_by_element := false, element_filter := some xOnlyFilter,
    total_element_view := false }

/-- Group by source, no normalization, no filter. -/
def plainOpt : Opt :=
  { sort_by_element := false, element_filter := none,
    total_element_view := false }

/-- Group by source, blanket view, with the `"queue"`-only filter. -/
def queueFilterOpt : Opt :=
  { sort_by_element := false, element_filter := some queueOnlyFilter,
    total_element_view := true }

/-- An `element-latency` entry whose `"src"` is `"other0"`, used to
exercise filter discarding. -/
def otherEntry : Entry :=
  { category := gstTracerStr, level := DebugLevel.trace,
    message := some { name := elementLatencyStr,
                      fields := [(srcFieldStr,
                                  Value.str ['o', 't', 'h', 'e', 'r', '0']),
                                 (timeFieldStr, Value.uint 7)] } }

/-- An entry outside the tracer category. -/
def otherCategoryEntry : Entry :=
  { category := ['f', 'o', 'o'], level := DebugLevel.trace,
    message := some { name := elementLatencyStr, fields := [] } }

/-- A `"latency"` entry (deliberately unhandled kind). -/
def latencyEntry : Entry :=
  { category := gstTracerStr, level := DebugLevel.trace,
    message := some { name := latencyStr, fields := [] } }

/-- An `"element-reported-latency"` entry (deliberately unhandled kind). -/
def reportedLatencyEntry : Entry :=
  { category := gstTracerStr, level := DebugLevel.trace,
    message := some { name := elementReportedLatencyStr, fields := [] } }

/-- A two-key accumulator state used to exercise the renderer. -/
def sampleLatency : Latency :=
  { element_totals := [(⟨['b']⟩, { n := 2, total := 10 }),
                       (⟨['a']⟩, { n := 1, total := 7 })] }

/-- A one-key accumulator state used to exercise `update_count`. -/
def oneKeyLatency : Latency :=
  { element_totals := [(⟨['a']⟩, { n := 1, total := 5 })] }

/-- `oneKeyLatency` after recording `2` more nanoseconds on `"a"`. -/
def oneKeyLatency2 : Latency :=
  { element_totals := [(⟨['a']⟩, { n := 2, total := 7 })] }

/-! ## Lemmas about the Key Normalizer -/

theorem splitOnDash_ne_nil (s : Str) : splitOnDash s ≠ [] := by
  cases s with
  | nil => simp [splitOnDash]
  | cons c cs =>
    unfold splitOnDash
    by_cases h : c = '-'
    · simp [h]
    · rw [if_neg h]
      cases hs : splitOnDash cs <;> simp [consHead]

theorem joinDash_cons_cons (c : Char) (p : Str) (ps : List Str) :
    joinDash ((c :: p) :: ps) = c :: joinDash (p :: ps) := by
  cases ps <;> simp [joinDash]

theorem joinDash_consHead (c : Char) (ps : List Str) (h : ps ≠ []) :
    joinDash (consHead c ps) = c :: joinDash ps := by
  cases ps with
  | nil => exact absurd rfl h
  | cons p ps => rw [consHead, joinDash_cons_cons]

/-- Splitting on `'-'` and rejoining with `'-'` is the identity. -/
theorem joinDash_splitOnDash (s : Str) : joinDash (splitOnDash s) = s := by
  induction s with
  | nil => simp [splitOnDash, joinDash]
  | cons c cs ih =>
    unfold splitOnDash
    by_cases h : c = '-'
    · rw [if_pos h]
      cases hs : splitOnDash cs with
      | nil => exact absurd hs (splitOnDash_ne_nil cs)
      | cons p ps =>
        rw [hs] at ih
        simp [joinDash, ih, h]
    · rw [if_neg h, joinDash_consHead c _ (splitOnDash_ne_nil cs), ih]

/-- The first segment of a split contains no `'-'`. -/
theorem not_dash_mem_head_splitOnDash (s : Str) :
    '-' ∉ (splitOnDash s).headD [] := by
  induction s with
  | nil => simp [splitOnDash]
  | cons c cs ih =>
    unfold splitOnDash
    by_cases h : c = '-'
    · simp [h]
    · rw [if_neg h]
      cases hs : splitOnDash cs with
      | nil => exact absurd hs (splitOnDash_ne_nil cs)
      | cons p ps =>
        rw [hs] at ih
        simp only [consHead, List.headD_cons] at ih ⊢
        intro hmem
        rcases List.mem_cons.mp hmem with h1 | h1
        · exact h h1.symm
        · exact ih h1

/-- A string without `'-'` splits into a single segment. -/
theorem splitOnDash_eq_single (a : Str) (h : '-' ∉ a) : splitOnDash a = [a] := by
  induction a with
  | nil => rfl
  | cons c cs ih =>
    have hc : ¬c = '-' := fun hc => h (by simp [hc])
    have hcs : '-' ∉ cs := fun hm => h (List.mem_cons_of_mem _ hm)
    simp [splitOnDash, hc, ih hcs, consHead]

/-- Splitting `a ++ "-" ++ b` when `a` has no `'-'`. -/
theorem splitOnDash_append (a b : Str) (h : '-' ∉ a) :
    splitOnDash (a ++ '-' :: b) = a :: splitOnDash b := by
  induction a with
  | nil => simp [splitOnDash]
  | cons c cs ih =>
    have hc : ¬c = '-' := fun hc => h (by simp [hc])
    have hcs : '-' ∉ cs := fun hm => h (List.mem_cons_of_mem _ hm)
    simp [splitOnDash, hc, ih hcs, consHead]

theorem dropWhile_twice {α : Type} (p : α → Bool) (l : List α) :
    (l.dropWhile p).dropWhile p = l.dropWhile p := by
  induction l with
  | nil => rfl
  | cons c cs ih =>
    by_cases h : p c
    · simp [List.dropWhile, h, ih]
    · simp [List.dropWhile, h]

theorem stripTrailingDigits_idem (s : Str) :
    stripTrailingDigits (stripTrailingDigits s) = stripTrailingDigits s := by
  unfold stripTrailingDigits
  rw [List.reverse_reverse, dropWhile_twice]

theorem mem_stripTrailingDigits {c : Char} {s : Str}
    (h : c ∈ stripTrailingDigits s) : c ∈ s := by
  unfold stripTrailingDigits at h
  rw [List.mem_reverse] at h
  have h2 := (List.dropWhile_sublist (l := s.reverse) Char.isDigit).subset h
  rwa [List.mem_reverse] at h2

theorem normalize_name_single {s p : Str} (hs : splitOnDash s = [p]) :
    normalize_name s = stripTrailingDigits p := by
  unfold normalize_name
  rw [hs]
  simp

theorem normalize_name_multi {s p q : Str} {qs : List Str}
    (hs : splitOnDash s = p :: q :: qs) :
    normalize_name s = stripTrailingDigits p ++ '-' :: joinDash (q :: qs) := by
  unfold normalize_name
  rw [hs]
  simp

/-- Normalization is idempotent (unconditionally). -/
theorem normalize_name_idem (s : Str) :
    normalize_name (normalize_name s) = normalize_name s := by
  cases hs : splitOnDash s with
  | nil => exact absurd hs (splitOnDash_ne_nil s)
  | cons p ps =>
    have hp : '-' ∉ p := by
      have h1 := not_dash_mem_head_splitOnDash s
      rw [hs] at h1
      simpa using h1
    have hsp : '-' ∉ stripTrailingDigits p := fun hm => hp (mem_stripTrailingDigits hm)
    cases ps with
    | nil =>
      rw [normalize_name_single hs,
        normalize_name_single (splitOnDash_eq_single _ hsp),
        stripTrailingDigits_idem]
    | cons q qs =>
      rw [normalize_name_multi hs]
      have hsplit : splitOnDash (stripTrailingDigits p ++ '-' :: joinDash (q :: qs)) =
          stripTrailingDigits p :: splitOnDash (joinDash (q :: qs)) :=
        splitOnDash_append _ _ hsp
      cases hr : splitOnDash (joinDash (q :: qs)) with
      | nil => exact absurd hr (splitOnDash_ne_nil _)
      | cons r rs =>
        rw [hr] at hsplit
        rw [normalize_name_multi hsplit, stripTrailingDigits_idem, ← hr,
          joinDash_splitOnDash]

/-! ## Lemmas about the Latency Accumulator -/

theorem lookupCount_eq_none_iff (m : List (Element × Count)) (e : Element) :
    lookupCount m e = none ↔ ∀ q ∈ m, q.1 ≠ e := by
  induction m with
  | nil => simp [lookupCount]
  | cons p ps ih =>
    obtain ⟨e', c⟩ := p
    by_cases h : e' = e
    · simp [lookupCount, h]
    · simp [lookupCount, h, ih]

theorem lookupCount_append (m m' : List (Element × Count)) (e : Element) :
    lookupCount (m ++ m') e =
      match lookupCount m e with
      | some c => some c
      | none => lookupCount m' e := by
  induction m with
  | nil => simp [lookupCount]
  | cons p ps ih =>
    obtain ⟨e', c⟩ := p
    by_cases h : e' = e <;> simp [lookupCount, h, ih]

theorem lookupCount_insert_isSome (l : Latency) (e : Element) :
    (lookupCount (l.insert_or_get_count e).element_totals e).isSome := by
  unfold Latency.insert_or_get_count
  cases hl : lookupCount l.element_totals e with
  | some c => simp [hl]
  | none => simp [lookupCount_append, hl, lookupCount]

theorem mem_insert_or_get_count {l : Latency} {e : Element}
    {p : Element × Count} (h : p ∈ (l.insert_or_get_count e).element_totals) :
    p ∈ l.element_totals ∨ p = (e, Count.new) := by
  unfold Latency.insert_or_get_count at h
  cases hl : lookupCount l.element_totals e with
  | some c => rw [hl] at h; exact Or.inl h
  | none =>
    rw [hl] at h
    simp only [List.mem_append, List.mem_singleton] at h
    exact h

theorem insert_or_get_count_shape (l : Latency) (e : Element) :
    (l.insert_or_get_count e).element_totals = l.element_totals ∨
    (l.insert_or_get_count e).element_totals =
      l.element_totals ++ [(e, Count.new)] := by
  unfold Latency.insert_or_get_count
  cases lookupCount l.element_totals e <;> simp

theorem insert_or_get_count_of_none {l : Latency} {e : Element}
    (h : lookupCount l.element_totals e = none) :
    l.insert_or_get_count e =
      { element_totals := l.element_totals ++ [(e, Count.new)] } := by
  unfold Latency.insert_or_get_count
  rw [h]

theorem update_count_of_some {l : Latency} {e : Element} {t : Nat} {c : Count}
    (h : lookupCount l.element_totals e = some c) :
    l.update_count e t =
      some { element_totals := l.element_totals.map fun p =>
        if p.1 = e then (p.1, p.2.update t) else p } := by
  unfold Latency.update_count
  rw [h]

theorem update_count_eq_some_iff {l : Latency} {e : Element} {t : Nat}
    {l' : Latency} (h : l.update_count e t = some l') :
    l'.element_totals = l.element_totals.map fun p =>
      if p.1 = e then (p.1, p.2.update t) else p := by
  unfold Latency.update_count at h
  cases hl : lookupCount l.element_totals e with
  | none => rw [hl] at h; cases h
  | some c =>
    rw [hl] at h
    cases h
    rfl

theorem update_count_after_insert_isSome (l : Latency) (e : Element) (t : Nat) :
    ((l.insert_or_get_count e).update_count e t).isSome := by
  unfold Latency.update_count
  cases hl : lookupCount (l.insert_or_get_count e).element_totals e with
  | none =>
    have h2 := lookupCount_insert_isSome l e
    rw [hl] at h2
    cases h2
  | some c => simp

theorem keys_map_update (m : List (Element × Count)) (e : Element) (t : Nat) :
    (m.map fun p => if p.1 = e then (p.1, p.2.update t) else p).map Prod.fst =
      m.map Prod.fst := by
  rw [List.map_map]
  apply List.map_congr_left
  intro p _
  by_cases h : p.1 = e <;> simp [h]

theorem lookupCount_map_update (m : List (Element × Count)) (e : Element)
    (t : Nat) :
    lookupCount (m.map fun p => if p.1 = e then (p.1, p.2.update t) else p) e =
      (lookupCount m e).map fun c => c.update t := by
  induction m with
  | nil => simp [lookupCount]
  | cons p ps ih =>
    obtain ⟨e', c⟩ := p
    show lookupCount ((if e' = e then (e', c.update t) else (e', c)) :: _) e = _
    by_cases h : e' = e
    · subst h
      rw [if_pos rfl]
      simp [lookupCount]
    · rw [if_neg h]
      simp [lookupCount, h, ih]

/-! ## A key's statistics under repeated recording (claim C1 support) -/

theorem foldl_update_stats :
    ∀ (ys : List Nat), ys ≠ [] → ∀ c : Count,
      (ys.foldl Count.update c).n = (c.n + ys.length) % u64size ∧
      (ys.foldl Count.update c).total = (c.total + ys.sum) % u64size := by
  intro ys
  induction ys with
  | nil => intro h; exact absurd rfl h
  | cons y ys ih =>
    intro _ c
    cases ys with
    | nil => simp [Count.update]
    | cons z zs =>
      have h2 := ih (by simp) (Count.update c y)
      simp only [List.foldl_cons] at h2 ⊢
      constructor
      · rw [h2.1]
        show ((c.n + 1) % u64size + (z :: zs).length) % u64size = _
        rw [Nat.mod_add_mod]
        congr 1
        simp
        omega
      · rw [h2.2]
        show ((c.total + y) % u64size + (z :: zs).sum) % u64size = _
        rw [Nat.mod_add_mod]
        congr 1
        simp
        ring

/-! ## Lemmas about the Event Classifier & Filter -/

/-- Step inversion: one processing step either leaves the accumulator
unchanged, or acts on a key that passed the inclusion filter — inserting
it and panicking on the missing `"time"` field, or inserting it and
folding one observation in. -/
theorem processEntry_shape (opt : Opt) (l : Latency) (e : Entry) :
    (processEntry opt l e).1 = l ∨
    ∃ k, passesFilter opt k = true ∧
      (processEntry opt l e =
        (l.insert_or_get_count ⟨k⟩, some PanicKind.missingTime) ∨
       ∃ t l2, (l.insert_or_get_count ⟨k⟩).update_count ⟨k⟩ t = some l2 ∧
         processEntry opt l e = (l2, none)) := by
  unfold processEntry
  split
  · cases hm : e.message with
    | none => left; rfl
    | some s =>
      dsimp only
      by_cases hn : s.name = elementLatencyStr
      · rw [if_pos hn]
        cases hk : selectKey opt s with
        | none => left; rfl
        | some rawKey =>
          dsimp only
          by_cases hfil : passesFilter opt (normKey opt rawKey) = true
          · rw [if_pos hfil]
            cases ht : s.getUInt timeFieldStr with
            | none => exact Or.inr ⟨normKey opt rawKey, hfil, Or.inl rfl⟩
            | some t =>
              dsimp only
              cases hup : (l.insert_or_get_count ⟨normKey opt rawKey⟩).update_count
                  ⟨normKey opt rawKey⟩ t with
              | none =>
                have h2 := update_count_after_insert_isSome l
                  ⟨normKey opt rawKey⟩ t
                rw [hup] at h2
                cases h2
              | some l2 =>
                exact Or.inr ⟨normKey opt rawKey, hfil, Or.inr ⟨t, l2, hup, rfl⟩⟩
          · rw [if_neg hfil]
            left; rfl
      · rw [if_neg hn]
        left; rfl
  · left; rfl

/-- Entries that do not reach the `"element-latency"` arm are complete
no-ops: wrong category or level, undecodable message, or any other
structure name. -/
theorem processEntry_skip {opt : Opt} {l : Latency} {e : Entry}
    (h : e.category ≠ gstTracerStr ∨ e.level ≠ DebugLevel.trace ∨
      e.message = none ∨
      ∃ s, e.message = some s ∧ s.name ≠ elementLatencyStr) :
    processEntry opt l e = (l, none) := by
  unfold processEntry
  rcases h with h | h | h | ⟨s, hs, hn⟩
  · rw [if_neg fun hc => h hc.1]
  · rw [if_neg fun hc => h hc.2]
  · split
    · rw [h]
    · rfl
  · split
    · rw [hs]
      dsimp only
      rw [if_neg hn]
    · rfl

/-- An entry whose derived key fails the inclusion filter is discarded:
no state change, no error. -/
theorem processEntry_discard {opt : Opt} {e : Entry} {k : Str}
    (hd : derivedKey opt e = some k) (hfail : passesFilter opt k = false)
    (l : Latency) : processEntry opt l e = (l, none) := by
  unfold derivedKey at hd
  unfold processEntry
  split
  · rename_i hcond
    rw [if_pos hcond] at hd
    cases hm : e.message with
    | none => rw [hm] at hd
    | some s =>
      rw [hm] at hd
      dsimp only at hd ⊢
      by_cases hn : s.name = elementLatencyStr
      · rw [if_pos hn] at hd
        rw [if_pos hn]
        cases hk : selectKey opt s with
        | none =>
          rw [hk] at hd
          exact absurd hd (by simp)
        | some rawKey =>
          rw [hk] at hd
          have hkk : normKey opt rawKey = k := by simpa using hd
          have hpf : passesFilter opt (normKey opt rawKey) = false := by
            rw [hkk]; exact hfail
          dsimp only
          simp [hpf]
      · rw [if_neg hn] at hd
        exact absurd hd (by simp)
  · rfl

/-- A recognized `element-latency` entry whose selected key field is
missing panics immediately (`expect`), leaving the accumulator
unchanged. -/
theorem processEntry_missing_key {opt : Opt} {l : Latency} {e : Entry}
    {s : Structure} (h1 : e.category = gstTracerStr)
    (h2 : e.level = DebugLevel.trace) (h3 : e.message = some s)
    (h4 : s.name = elementLatencyStr) (hsel : selectKey opt s = none) :
    processEntry opt l e =
      (l, some (if opt.sort_by_element then PanicKind.missingElement
                else PanicKind.missingSrc)) := by
  unfold processEntry
  rw [if_pos ⟨h1, h2⟩, h3]
  dsimp only
  rw [if_pos h4, hsel]

/-- A recognized `element-latency` entry whose key passes the filter but
whose `"time"` field is missing panics (`expect`) *after* the key has
been inserted into the accumulator. -/
theorem processEntry_missing_time {opt : Opt} {l : Latency} {e : Entry}
    {s : Structure} {k0 : Str} (h1 : e.category = gstTracerStr)
    (h2 : e.level = DebugLevel.trace) (h3 : e.message = some s)
    (h4 : s.name = elementLatencyStr) (h5 : selectKey opt s = some k0)
    (h6 : passesFilter opt (normKey opt k0) = true)
    (h7 : s.getUInt timeFieldStr = none) :
    processEntry opt l e =
      (l.insert_or_get_count ⟨normKey opt k0⟩, some PanicKind.missingTime) := by
  unfold processEntry
  rw [if_pos ⟨h1, h2⟩, h3]
  dsimp only
  rw [if_pos h4, h5]
  dsimp only
  rw [if_pos h6, h7]

/-- Every key in the accumulator survives a processing step. -/
theorem processEntry_keys_mono (opt : Opt) (l : Latency) (e : Entry) :
    ∀ k ∈ mapKeys l, k ∈ mapKeys (processEntry opt l e).1 := by
  rcases processEntry_shape opt l e with h1 | ⟨k', _, h2 | ⟨t, l2, hup, heq⟩⟩
  · rw [h1]; exact fun k hk => hk
  · rw [h2]
    intro k hk
    show k ∈ mapKeys (l.insert_or_get_count ⟨k'⟩)
    unfold mapKeys at hk ⊢
    rcases insert_or_get_count_shape l ⟨k'⟩ with hsh | hsh <;> rw [hsh]
    · exact hk
    · rw [List.map_append]
      exact List.mem_append_left _ hk
  · rw [heq]
    show ∀ k ∈ mapKeys l, k ∈ mapKeys l2
    have hl2 : mapKeys l2 = mapKeys (l.insert_or_get_count ⟨k'⟩) := by
      unfold mapKeys
      rw [update_count_eq_some_iff hup, List.map_map]
      apply List.map_congr_left
      intro p _
      by_cases hpe : p.1 = (⟨k'⟩ : Element) <;> simp [hpe]
    intro k hk
    rw [hl2]
    unfold mapKeys at hk ⊢
    rcases insert_or_get_count_shape l ⟨k'⟩ with hsh | hsh <;> rw [hsh]
    · exact hk
    · rw [List.map_append]
      exact List.mem_append_left _ hk

/-- When an inclusion filter is configured, a processing step preserves
"every key in the accumulator matches the filter" (the inserted key has
passed the filter before insertion, so this holds even for the state a
panic leaves behind). -/
theorem processEntry_filter_inv {opt : Opt} {f : Str → Bool}
    (hf : opt.element_filter = some f) {l : Latency} {e : Entry}
    (h : ∀ p ∈ l.element_totals, f p.1.name = true) :
    ∀ p ∈ (processEntry opt l e).1.element_totals, f p.1.name = true := by
  rcases processEntry_shape opt l e with h1 | ⟨k, hk, h2 | ⟨t, l2, hup, heq⟩⟩
  · rw [h1]; exact h
  · rw [h2]
    intro p hp
    rcases mem_insert_or_get_count hp with hmem | hmem
    · exact h p hmem
    · have hfk : f k = true := by
        unfold passesFilter at hk
        rw [hf] at hk
        exact hk
      rw [hmem]
      exact hfk
  · rw [heq]
    intro p hp
    have hents := update_count_eq_some_iff hup
    rw [hents] at hp
    rcases List.mem_map.mp hp with ⟨q, hq, hgq⟩
    have hname : p.1.name = q.1.name := by
      by_cases hqe : q.1 = (⟨k⟩ : Element) <;>
        rw [← hgq] <;> simp [hqe]
    rw [hname]
    rcases mem_insert_or_get_count hq with hmem | hmem
    · exact h q hmem
    · rw [hmem]
      unfold passesFilter at hk
      rw [hf] at hk
      exact hk

/-- A completed processing step preserves `1 ≤ count ≤ B`, raising the
bound to `B + 1`. -/
theorem processEntry_count_inv {opt : Opt} {l : Latency} {e : Entry}
    {B : Nat} (hB : B + 1 < u64size)
    (h : ∀ p ∈ l.element_totals, 1 ≤ p.2.n ∧ p.2.n ≤ B)
    (hok : (processEntry opt l e).2 = none) :
    ∀ p ∈ (processEntry opt l e).1.element_totals,
      1 ≤ p.2.n ∧ p.2.n ≤ B + 1 := by
  rcases processEntry_shape opt l e with h1 | ⟨k, _, h2 | ⟨t, l2, hup, heq⟩⟩
  · rw [h1]
    intro p hp
    have h3 := h p hp
    omega
  · rw [h2] at hok
    cases hok
  · rw [heq]
    intro p hp
    have hents := update_count_eq_some_iff hup
    rw [hents] at hp
    rcases List.mem_map.mp hp with ⟨q, hq, hgq⟩
    rcases mem_insert_or_get_count hq with hmem | hmem
    · have h3 := h q hmem
      by_cases hqe : q.1 = (⟨k⟩ : Element)
      · rw [← hgq, if_pos hqe]
        show 1 ≤ (q.2.update t).n ∧ (q.2.update t).n ≤ B + 1
        unfold Count.update
        have h4 : (q.2.n + 1) % u64size = q.2.n + 1 :=
          Nat.mod_eq_of_lt (by omega)
        simp only [h4]
        omega
      · rw [← hgq, if_neg hqe]
        omega
    · rw [hmem] at hgq
      by_cases hqe : ((⟨k⟩, Count.new) : Element × Count).1 = (⟨k⟩ : Element)
      · rw [← hgq, if_pos hqe]
        show 1 ≤ (Count.new.update t).n ∧ (Count.new.update t).n ≤ B + 1
        unfold Count.update Count.new
        have h4 : (0 + 1) % u64size = 1 := Nat.mod_eq_of_lt (by omega)
        simp only [h4]
        omega
      · exact absurd rfl hqe

/-- Fold a step-preserved accumulator invariant over the whole stream. -/
theorem processLog_inv {opt : Opt} {P : Latency → Prop}
    (hstep : ∀ l e, P l → P (processEntry opt l e).1) :
    ∀ (es : List Entry) (l : Latency), P l → P (processLog opt es l).1 := by
  intro es
  induction es with
  | nil => exact fun l h => h
  | cons e es ih =>
    intro l h
    have hstep2 := hstep l e h
    unfold processLog
    cases hpe : processEntry opt l e with
    | mk l' err =>
      rw [hpe] at hstep2
      cases err
      · exact ih l' hstep2
      · exact hstep2

/-- The count invariant over a whole completed run: counts stay between
`1` and the initial bound plus the number of entries consumed. -/
theorem processLog_count_inv {opt : Opt} :
    ∀ (es : List Entry) (l : Latency) (B : Nat),
      B + es.length < u64size →
      (∀ p ∈ l.element_totals, 1 ≤ p.2.n ∧ p.2.n ≤ B) →
      (processLog opt es l).2 = none →
      ∀ p ∈ (processLog opt es l).1.element_totals,
        1 ≤ p.2.n ∧ p.2.n ≤ B + es.length := by
  intro es
  induction es with
  | nil =>
    intro l B _ h _
    intro p hp
    have h2 := h p hp
    omega
  | cons e es ih =>
    intro l B hB h hok
    unfold processLog at hok ⊢
    cases hpe : processEntry opt l e with
    | mk l' err =>
      rw [hpe] at hok
      cases err with
      | some p => simp at hok
      | none =>
        have hstep : ∀ p ∈ l'.element_totals, 1 ≤ p.2.n ∧ p.2.n ≤ B + 1 := by
          have h2 := processEntry_count_inv (B := B)
            (by simp at hB; omega) h (by rw [hpe])
          rw [hpe] at h2
          exact h2
        have h3 := ih l' (B + 1) (by simp at hB ⊢; omega) hstep hok
        intro p hp
        have h4 := h3 p hp
        simp only [List.length_cons]
        omega

/-! ## Lemmas about the Report Renderer -/

theorem cmpStr_eq_iff (a : Str) : ∀ b, cmpStr a b = Ordering.eq ↔ a = b := by
  induction a with
  | nil => intro b; cases b <;> simp [cmpStr]
  | cons x xs ih =>
    intro b
    cases b with
    | nil => simp [cmpStr]
    | cons y ys =>
      unfold cmpStr
      by_cases h1 : x < y
      · rw [if_pos h1]
        constructor
        · intro h; cases h
        · intro h
          injection h with h2 h3
          exact absurd h1 (by rw [h2]; exact lt_irrefl y)
      · rw [if_neg h1]
        by_cases h2 : y < x
        · rw [if_pos h2]
          constructor
          · intro h; cases h
          · intro h
            injection h with h3 h4
            exact absurd h2 (by rw [h3]; exact lt_irrefl y)
        · rw [if_neg h2]
          have hxy : x = y := le_antisymm (not_lt.mp h2) (not_lt.mp h1)
          rw [ih ys]
          constructor
          · intro h; rw [hxy, h]
          · intro h
            injection h with h3 h4

theorem cmpStr_gt_iff (a : Str) :
    ∀ b, cmpStr a b = Ordering.gt ↔ cmpStr b a = Ordering.lt := by
  induction a with
  | nil => intro b; cases b <;> simp [cmpStr]
  | cons x xs ih =>
    intro b
    cases b with
    | nil => simp [cmpStr]
    | cons y ys =>
      unfold cmpStr
      by_cases h1 : x < y
      · simp only [if_pos h1, if_neg (lt_asymm h1)]
        simp
      · by_cases h2 : y < x
        · simp only [if_neg h1, if_pos h2]
        · simp only [if_neg h1, if_neg h2]
          exact ih ys

theorem cmpStr_lt_or_eq_of_not_gt {a b : Str}
    (h : cmpStr a b ≠ Ordering.gt) : cmpStr a b = Ordering.lt ∨ a = b := by
  cases hc : cmpStr a b
  · exact Or.inl rfl
  · exact Or.inr ((cmpStr_eq_iff a b).mp hc)
  · exact absurd hc h

theorem insertSorted_eq (p : Element × Count) (l : List (Element × Count)) :
    insertSorted p l = p :: l ∨
    ∃ q qs, l = q :: qs ∧ cmpStr p.1.name q.1.name = Ordering.gt ∧
      insertSorted p l = q :: insertSorted p qs := by
  cases l with
  | nil => left; rfl
  | cons q qs =>
    by_cases h : cmpStr p.1.name q.1.name = Ordering.gt
    · right
      exact ⟨q, qs, rfl, h, by simp only [insertSorted, if_pos h]⟩
    · left
      simp only [insertSorted, if_neg h]

theorem insertSorted_perm (p : Element × Count) :
    ∀ l : List (Element × Count), (insertSorted p l).Perm (p :: l) := by
  intro l
  induction l with
  | nil => exact List.Perm.refl _
  | cons q qs ih =>
    by_cases h : cmpStr p.1.name q.1.name = Ordering.gt
    · simp only [insertSorted, if_pos h]
      exact (ih.cons q).trans (List.Perm.swap p q qs)
    · simp only [insertSorted, if_neg h]
      exact List.Perm.refl _

theorem sortByName_perm (l : List (Element × Count)) :
    (sortByName l).Perm l := by
  induction l with
  | nil => exact List.Perm.refl _
  | cons x xs ih =>
    show (insertSorted x (sortByName xs)).Perm (x :: xs)
    exact (insertSorted_perm x (sortByName xs)).trans (ih.cons x)

theorem chain_insertSorted (p : Element × Count) :
    ∀ l : List (Element × Count), List.Chain' nameLe l →
      List.Chain' nameLe (insertSorted p l) := by
  intro l
  induction l with
  | nil => intro _; simp [insertSorted]
  | cons q qs ih =>
    intro h
    by_cases hpq : cmpStr p.1.name q.1.name = Ordering.gt
    · simp only [insertSorted, if_pos hpq]
      rw [List.chain'_cons']
      refine ⟨?_, ih h.tail⟩
      intro y hy
      rcases insertSorted_eq p qs with he | ⟨r, rs, hqs, _, he⟩
      · rw [he] at hy
        simp only [List.head?_cons, Option.mem_def, Option.some.injEq] at hy
        subst hy
        show cmpStr q.1.name p.1.name ≠ Ordering.gt
        rw [(cmpStr_gt_iff _ _).mp hpq]
        simp
      · rw [he] at hy
        simp only [List.head?_cons, Option.mem_def, Option.some.injEq] at hy
        subst hy
        rw [hqs] at h
        exact (List.chain'_cons.mp h).1
    · simp only [insertSorted, if_neg hpq]
      exact List.chain'_cons.mpr ⟨hpq, h⟩

theorem sortByName_chain (l : List (Element × Count)) :
    List.Chain' nameLe (sortByName l) := by
  induction l with
  | nil => simp [sortByName]
  | cons x xs ih =>
    show List.Chain' nameLe (insertSorted x (sortByName xs))
    exact chain_insertSorted x _ ih

theorem chain'_and {α : Type} {R S : α → α → Prop} :
    ∀ (l : List α), List.Chain' R l → List.Chain' S l →
      List.Chain' (fun a b => R a b ∧ S a b) l := by
  intro l
  induction l with
  | nil => intro _ _; exact List.chain'_nil
  | cons a l2 ih =>
    intro h1 h2
    cases l2 with
    | nil => exact List.chain'_singleton a
    | cons b l3 =>
      rw [List.chain'_cons] at h1 h2 ⊢
      exact ⟨⟨h1.1, h2.1⟩, ih h1.2 h2.2⟩

theorem renderPairs_keys (l : Latency) :
    (renderPairs l).map Prod.fst =
      (sortByName l.element_totals).map fun p => p.1.name := by
  unfold renderPairs
  rw [List.map_map]
  rfl

theorem mem_renderPairs_keys (l : Latency) (k : Str) :
    k ∈ mapKeys l ↔ k ∈ (renderPairs l).map Prod.fst := by
  rw [renderPairs_keys]
  unfold mapKeys
  exact ((sortByName_perm l.element_totals).map fun p => p.1.name).mem_iff.symm

/-! ## Claim theorems -/

/-- C2: for every input string, `normalize_name` splits on `'-'`, strips
the trailing run of decimal digits from the first segment only, and
rejoins the remaining segments unchanged with `'-'` (it agrees with the
spec-side description `normalizeSpec` on every input, so every input —
including the empty string — is valid and the function is pure); in
particular `"queue0" ↦ "queue"`, `"multiqueue184" ↦ "multiqueue"`,
`"nvh264enc" ↦ "nvh264enc"`, and
`"gesvideourisource0-videoconvertscale" ↦
"gesvideourisource-videoconvertscale"`. -/
theorem normalize_name_correct :
    (∀ s : Str, normalize_name s = normalizeSpec s) ∧
    normalize_name ['q', 'u', 'e', 'u', 'e', '0'] =
      ['q', 'u', 'e', 'u', 'e'] ∧
    normalize_name
      ['m', 'u', 'l', 't', 'i', 'q', 'u', 'e', 'u', 'e', '1', '8', '4'] =
      ['m', 'u', 'l', 't', 'i', 'q', 'u', 'e', 'u', 'e'] ∧
    normalize_name ['n', 'v', 'h', '2', '6', '4', 'e', 'n', 'c'] =
      ['n', 'v', 'h', '2', '6', '4', 'e', 'n', 'c'] ∧
    normalize_name
      ['g', 'e', 's', 'v', 'i', 'd', 'e', 'o', 'u', 'r', 'i', 's', 'o', 'u',
       'r', 'c', 'e', '0', '-', 'v', 'i', 'd', 'e', 'o', 'c', 'o', 'n', 'v',
       'e', 'r', 't', 's', 'c', 'a', 'l', 'e'] =
      ['g', 'e', 's', 'v', 'i', 'd', 'e', 'o', 'u', 'r', 'i', 's', 'o', 'u',
       'r', 'c', 'e', '-', 'v', 'i', 'd', 'e', 'o', 'c', 'o', 'n', 'v', 'e',
       'r', 't', 's', 'c', 'a', 'l', 'e'] := by
  refine ⟨?_, by decide, by decide, by decide, by decide⟩
  intro s
  unfold normalize_name normalizeSpec
  cases hs : splitOnDash s with
  | nil => rfl
  | cons p ps =>
    cases ps with
    | nil => simp [joinDash]
    | cons q qs => simp [joinDash]

/-- C8: normalization is idempotent — for every input whose first
segment has no further trailing digits after one pass (this in fact
holds of every output of `normalize_name`, by `normalize_name_idem`),
`normalize_name (normalize_name x) = normalize_name x`. -/
theorem normalize_name_idem_claim (x : Str)
    (h : stripTrailingDigits ((splitOnDash (normalize_name x)).headD []) =
      (splitOnDash (normalize_name x)).headD []) :
    normalize_name (normalize_name x) = normalize_name x :=
  normalize_name_idem x

/-- Witness for C8 at the input `"queue0"`. -/
theorem normalize_name_idem_claim_witness :
    (stripTrailingDigits
        ((splitOnDash (normalize_name ['q', 'u', 'e', 'u', 'e', '0'])).headD []) =
      (splitOnDash (normalize_name ['q', 'u', 'e', 'u', 'e', '0'])).headD []) ∧
    normalize_name (normalize_name ['q', 'u', 'e', 'u', 'e', '0']) =
      normalize_name ['q', 'u', 'e', 'u', 'e', '0'] :=
  ⟨by decide, normalize_name_idem_claim ['q', 'u', 'e', 'u', 'e', '0'] (by decide)⟩

/-- C1: recording elapsed values `ys` (n ≥ 1 of them) into a fresh stat
by the element-latency path — each record increments the count by one
and adds the value to the total (`Latency.update_count` applies exactly
this per-stat step `Count.update` to the key's entry) — yields count
`n`, total `sum ys` and mean `floor(sum ys / n)`, in `u64` unsigned
integer arithmetic; absent `u64` overflow the mean is exactly
`floor((a1 + ... + an) / n)`. -/
theorem mean_eq_floor_sum_div_count (ys : List Nat) (h : ys ≠ [])
    (l : Latency) (e : Element) (t : Nat) (l' : Latency)
    (hup : l.update_count e t = some l') :
    lookupCount l'.element_totals e =
      (lookupCount l.element_totals e).map (fun c => c.update t) ∧
    (ys.foldl Count.update Count.new).n = ys.length % u64size ∧
    (ys.foldl Count.update Count.new).total = ys.sum % u64size ∧
    (ys.foldl Count.update Count.new).mean =
      (ys.sum % u64size) / (ys.length % u64size) ∧
    (ys.sum < u64size → ys.length < u64size →
      (ys.foldl Count.update Count.new).mean = ys.sum / ys.length) := by
  have hstats := foldl_update_stats ys h Count.new
  have hn : (ys.foldl Count.update Count.new).n = ys.length % u64size := by
    rw [hstats.1]
    show (Count.new.n + ys.length) % u64size = _
    rw [show Count.new.n = 0 from rfl, Nat.zero_add]
  have ht : (ys.foldl Count.update Count.new).total = ys.sum % u64size := by
    rw [hstats.2]
    show (Count.new.total + ys.sum) % u64size = _
    rw [show Count.new.total = 0 from rfl, Nat.zero_add]
  refine ⟨?_, hn, ht, ?_, ?_⟩
  · rw [update_count_eq_some_iff hup]
    exact lookupCount_map_update l.element_totals e t
  · unfold Count.mean
    rw [hn, ht]
  · intro hs hl
    unfold Count.mean
    rw [hn, ht, Nat.mod_eq_of_lt hs, Nat.mod_eq_of_lt hl]

/-- Witness for C1: the values `[100, 300]` on a fresh stat give mean
`200`, and a concrete `update_count` call advances the stat by one
observation. -/
theorem mean_eq_floor_sum_div_count_witness :
    (([100, 300] : List Nat) ≠ []) ∧
    oneKeyLatency.update_count ⟨['a']⟩ 2 = some oneKeyLatency2 ∧
    (lookupCount oneKeyLatency2.element_totals ⟨['a']⟩ =
      (lookupCount oneKeyLatency.element_totals ⟨['a']⟩).map
        (fun c => c.update 2) ∧
    (([100, 300] : List Nat).foldl Count.update Count.new).n =
      ([100, 300] : List Nat).length % u64size ∧
    (([100, 300] : List Nat).foldl Count.update Count.new).total =
      ([100, 300] : List Nat).sum % u64size ∧
    (([100, 300] : List Nat).foldl Count.update Count.new).mean =
      (([100, 300] : List Nat).sum % u64size) /
        (([100, 300] : List Nat).length % u64size) ∧
    (([100, 300] : List Nat).sum < u64size →
      ([100, 300] : List Nat).length < u64size →
      (([100, 300] : List Nat).foldl Count.update Count.new).mean =
        ([100, 300] : List Nat).sum / ([100, 300] : List Nat).length)) :=
  ⟨by decide, by decide,
    mean_eq_floor_sum_div_count [100, 300] (by decide) oneKeyLatency ⟨['a']⟩ 2
      oneKeyLatency2 (by decide)⟩

/-- C4: processing exactly two `element-latency` entries whose `"src"`
is `"queue0"` with times `100` and `300` nanoseconds, grouping by source
with blanket-view normalization and no filter, completes without error
and the report contains exactly one entry: key `"queue"` with mean
`200`. -/
theorem end_to_end_queue_mean :
    (processLog blanketOpt [queueEntry 100, queueEntry 300] Latency.new).2 =
      none ∧
    renderPairs
      (processLog blanketOpt [queueEntry 100, queueEntry 300] Latency.new).1 =
      [(queueStr, 200)] := by
  decide

/-- C9: entries outside the tracer category or trace level, with
undecodable payloads, or with any structure name other than
`"element-latency"` (in particular `"latency"` and
`"element-reported-latency"`) leave the accumulator unchanged and raise
no error; a stream containing only `"latency"` and
`"element-reported-latency"` entries therefore produces an empty report
(zero key lines) with no error. -/
theorem unhandled_entries_no_op (opt : Opt) (l : Latency) (e : Entry)
    (es : List Entry)
    (he : e.category ≠ gstTracerStr ∨ e.level ≠ DebugLevel.trace ∨
      e.message = none ∨
      ∃ s, e.message = some s ∧ s.name ≠ elementLatencyStr)
    (hes : ∀ x ∈ es, ∃ s, x.message = some s ∧
      (s.name = latencyStr ∨ s.name = elementReportedLatencyStr)) :
    processEntry opt l e = (l, none) ∧
    processLog opt es Latency.new = (Latency.new, none) ∧
    renderPairs Latency.new = [] := by
  refine ⟨processEntry_skip he, ?_, rfl⟩
  have hgen : ∀ (es' : List Entry),
      (∀ x ∈ es', ∃ s, x.message = some s ∧
        (s.name = latencyStr ∨ s.name = elementReportedLatencyStr)) →
      ∀ l0, processLog opt es' l0 = (l0, none) := by
    intro es'
    induction es' with
    | nil => intro _ l0; rfl
    | cons x xs ih =>
      intro hx l0
      have hskip : processEntry opt l0 x = (l0, none) := by
        rcases hx x (List.mem_cons_self x xs) with ⟨s, hsm, hn⟩
        apply processEntry_skip
        refine Or.inr (Or.inr (Or.inr ⟨s, hsm, ?_⟩))
        rcases hn with hn | hn <;> rw [hn] <;> decide
      unfold processLog
      rw [hskip]
      exact ih (fun y hy => hx y (List.mem_cons_of_mem x hy)) l0
  exact hgen es hes Latency.new

/-- Witness for C9: an entry of a foreign category is a no-op, and the
two-entry stream `["latency", "element-reported-latency"]` yields the
empty report without error. -/
theorem unhandled_entries_no_op_witness :
    processEntry plainOpt Latency.new otherCategoryEntry =
      (Latency.new, none) ∧
    processLog plainOpt [latencyEntry, reportedLatencyEntry] Latency.new =
      (Latency.new, none) ∧
    renderPairs Latency.new = [] :=
  unhandled_entries_no_op plainOpt Latency.new otherCategoryEntry
    [latencyEntry, reportedLatencyEntry]
    (Or.inl (by decide))
    (by
      intro x hx
      simp only [List.mem_cons, List.not_mem_nil, or_false] at hx
      rcases hx with hx | hx
      · subst hx
        exact ⟨_, rfl, Or.inl rfl⟩
      · subst hx
        exact ⟨_, rfl, Or.inr rfl⟩)

/-- C3 counterexample: an `element-latency` entry that reaches the
classifier (tracer category, trace level, decodable payload named
`"element-latency"`) and is missing its `"time"` field is nevertheless
silently skipped — no fatal error, accumulator untouched — when its key
fails the configured inclusion filter, because the filter check runs
before the `"time"` extraction. -/
theorem missing_time_silently_skipped :
    noTimeEntry.category = gstTracerStr ∧
    noTimeEntry.level = DebugLevel.trace ∧
    noTimeEntry.message = some noTimeStruct ∧
    noTimeStruct.name = elementLatencyStr ∧
    noTimeStruct.getUInt timeFieldStr = none ∧
    processEntry xFilterOpt Latency.new noTimeEntry = (Latency.new, none) := by
  refine ⟨rfl, rfl, rfl, rfl, by decide, by decide⟩

/-- C3 (amended): for an entry that reaches the classifier, a missing
selected key field is always fatal, and a missing `"time"` field is
fatal provided the (possibly normalized) key passes the inclusion filter
(vacuously so when no filter is configured); an entry missing `"time"`
whose key fails the filter is instead discarded silently. -/
theorem missing_fields_fatal (opt : Opt) (l : Latency) (e : Entry)
    (s : Structure) (h1 : e.category = gstTracerStr)
    (h2 : e.level = DebugLevel.trace) (h3 : e.message = some s)
    (h4 : s.name = elementLatencyStr) :
    (selectKey opt s = none → (processEntry opt l e).2.isSome = true) ∧
    (∀ k, selectKey opt s = some k →
      passesFilter opt (normKey opt k) = true →
      s.getUInt timeFieldStr = none →
      processEntry opt l e =
        (l.insert_or_get_count ⟨normKey opt k⟩, some PanicKind.missingTime)) ∧
    (∀ k, selectKey opt s = some k →
      passesFilter opt (normKey opt k) = false →
      processEntry opt l e = (l, none)) := by
  refine ⟨?_, ?_, ?_⟩
  · intro hsel
    rw [processEntry_missing_key h1 h2 h3 h4 hsel]
    rfl
  · intro k hsel hfil ht
    exact processEntry_missing_time h1 h2 h3 h4 hsel hfil ht
  · intro k hsel hfil
    apply processEntry_discard (k := normKey opt k) _ hfil
    unfold derivedKey
    rw [if_pos ⟨h1, h2⟩, h3]
    dsimp only
    rw [if_pos h4, hsel]
    rfl

/-- Witness for C3 (amended): the missing-`"time"` entry with no filter
configured panics after inserting the key `"queue0"`. -/
theorem missing_fields_fatal_witness :
    (noTimeEntry.category = gstTracerStr ∧
     noTimeEntry.level = DebugLevel.trace ∧
     noTimeEntry.message = some noTimeStruct ∧
     noTimeStruct.name = elementLatencyStr) ∧
    ((selectKey plainOpt noTimeStruct = none →
      (processEntry plainOpt Latency.new noTimeEntry).2.isSome = true) ∧
    (∀ k, selectKey plainOpt noTimeStruct = some k →
      passesFilter plainOpt (normKey plainOpt k) = true →
      noTimeStruct.getUInt timeFieldStr = none →
      processEntry plainOpt Latency.new noTimeEntry =
        (Latency.new.insert_or_get_count ⟨normKey plainOpt k⟩,
          some PanicKind.missingTime)) ∧
    (∀ k, selectKey plainOpt noTimeStruct = some k →
      passesFilter plainOpt (normKey plainOpt k) = false →
      processEntry plainOpt Latency.new noTimeEntry = (Latency.new, none))) :=
  ⟨⟨rfl, rfl, rfl, rfl⟩,
    missing_fields_fatal plainOpt Latency.new noTimeEntry noTimeStruct
      rfl rfl rfl rfl⟩

/-- C10: when an `element-latency` entry passes key extraction and the
filter but is missing `"time"`, the fatal failure happens only after the
derived key has been inserted: for a key not previously in the
accumulator, the state at the moment of failure contains that key with a
zero-count stat, so the failing step has mutated the accumulator. -/
theorem state_mutated_on_missing_time (opt : Opt) (l : Latency) (e : Entry)
    (s : Structure) (k0 : Str)
    (h1 : e.category = gstTracerStr) (h2 : e.level = DebugLevel.trace)
    (h3 : e.message = some s) (h4 : s.name = elementLatencyStr)
    (h5 : selectKey opt s = some k0)
    (h6 : passesFilter opt (normKey opt k0) = true)
    (h7 : s.getUInt timeFieldStr = none)
    (h8 : lookupCount l.element_totals ⟨normKey opt k0⟩ = none) :
    processEntry opt l e =
      ({ element_totals :=
          l.element_totals ++ [(⟨normKey opt k0⟩, Count.new)] },
        some PanicKind.missingTime) ∧
    (⟨normKey opt k0⟩, Count.new) ∈ (processEntry opt l e).1.element_totals ∧
    Count.new.n = 0 ∧
    (processEntry opt l e).1 ≠ l := by
  have hmain := processEntry_missing_time (l := l)
    h1 h2 h3 h4 h5 h6 h7
  rw [insert_or_get_count_of_none h8] at hmain
  refine ⟨hmain, ?_, rfl, ?_⟩
  · rw [hmain]
    simp
  · rw [hmain]
    intro hcontra
    have hlen := congrArg (fun la : Latency => la.element_totals.length) hcontra
    simp only [List.length_append, List.length_cons, List.length_nil] at hlen
    omega

/-- Witness for C10: the missing-`"time"` entry on the empty accumulator
leaves behind the zero-count key `"queue0"`. -/
theorem state_mutated_on_missing_time_witness :
    processEntry plainOpt Latency.new noTimeEntry =
      ({ element_totals :=
          Latency.new.element_totals ++
            [(⟨normKey plainOpt queue0Str⟩, Count.new)] },
        some PanicKind.missingTime) ∧
    (⟨normKey plainOpt queue0Str⟩, Count.new) ∈
      (processEntry plainOpt Latency.new noTimeEntry).1.element_totals ∧
    Count.new.n = 0 ∧
    (processEntry plainOpt Latency.new noTimeEntry).1 ≠ Latency.new :=
  state_mutated_on_missing_time plainOpt Latency.new noTimeEntry noTimeStruct
    queue0Str rfl rfl rfl rfl rfl rfl rfl rfl

/-- C5: with an inclusion filter `f` configured, every key in the
accumulator — and hence every key of the final report — matches `f`; an
entry whose derived key fails `f` is discarded with no error and no
state change; every recorded key survives to the end of the run; and the
report's keys are exactly the accumulator's keys. -/
theorem filter_correct (opt : Opt) (f : Str → Bool)
    (hf : opt.element_filter = some f) (es : List Entry) (l0 : Latency)
    (e : Entry) (k : Str)
    (h0 : ∀ p ∈ l0.element_totals, f p.1.name = true) :
    (∀ p ∈ (processLog opt es l0).1.element_totals, f p.1.name = true) ∧
    (∀ q ∈ renderPairs (processLog opt es l0).1, f q.1 = true) ∧
    (derivedKey opt e = some k → f k = false →
      processEntry opt l0 e = (l0, none)) ∧
    (∀ k' ∈ mapKeys l0, k' ∈ mapKeys (processLog opt es l0).1) ∧
    (∀ k', k' ∈ mapKeys (processLog opt es l0).1 ↔
      k' ∈ (renderPairs (processLog opt es l0).1).map Prod.fst) := by
  have hinv : ∀ p ∈ (processLog opt es l0).1.element_totals,
      f p.1.name = true :=
    processLog_inv
      (P := fun l => ∀ p ∈ l.element_totals, f p.1.name = true)
      (fun l e2 h => processEntry_filter_inv hf h) es l0 h0
  refine ⟨hinv, ?_, ?_, ?_, fun k' => mem_renderPairs_keys _ k'⟩
  · intro q hq
    unfold renderPairs at hq
    rcases List.mem_map.mp hq with ⟨p, hp, hpq⟩
    have hp2 : p ∈ (processLog opt es l0).1.element_totals :=
      (sortByName_perm _).subset hp
    rw [← hpq]
    exact hinv p hp2
  · intro hd hfk
    exact processEntry_discard hd (by simp [passesFilter, hf, hfk]) l0
  · exact processLog_inv
      (P := fun l => ∀ k' ∈ mapKeys l0, k' ∈ mapKeys l)
      (fun l e2 h k' hk' => processEntry_keys_mono opt l e2 k' (h k' hk'))
      es l0 (fun k' hk' => hk')

/-- Witness for C5: the `"queue"`-only filter over a stream containing a
matching `"queue0"` entry and a non-matching `"other0"` entry. -/
theorem filter_correct_witness :
    (queueFilterOpt.element_filter = some queueOnlyFilter) ∧
    (∀ p ∈ Latency.new.element_totals, queueOnlyFilter p.1.name = true) ∧
    ((∀ p ∈ (processLog queueFilterOpt [queueEntry 100, otherEntry]
        Latency.new).1.element_totals, queueOnlyFilter p.1.name = true) ∧
    (∀ q ∈ renderPairs (processLog queueFilterOpt [queueEntry 100, otherEntry]
        Latency.new).1, queueOnlyFilter q.1 = true) ∧
    (derivedKey queueFilterOpt otherEntry = some ['o', 't', 'h', 'e', 'r'] →
      queueOnlyFilter ['o', 't', 'h', 'e', 'r'] = false →
      processEntry queueFilterOpt Latency.new otherEntry =
        (Latency.new, none)) ∧
    (∀ k' ∈ mapKeys Latency.new,
      k' ∈ mapKeys (processLog queueFilterOpt [queueEntry 100, otherEntry]
        Latency.new).1) ∧
    (∀ k', k' ∈ mapKeys (processLog queueFilterOpt [queueEntry 100, otherEntry]
        Latency.new).1 ↔
      k' ∈ (renderPairs (processLog queueFilterOpt [queueEntry 100, otherEntry]
        Latency.new).1).map Prod.fst)) :=
  ⟨rfl, by intro p hp; exact absurd hp (List.not_mem_nil p),
    filter_correct queueFilterOpt queueOnlyFilter rfl
      [queueEntry 100, otherEntry] Latency.new otherEntry
      ['o', 't', 'h', 'e', 'r']
      (by intro p hp; exact absurd hp (List.not_mem_nil p))⟩

/-- C6: for every accumulator state (whose map keys are unique), the
rendered report lists keys in strictly ascending lexicographic order
with no duplicates, and rendering the same state twice produces
identical output. -/
theorem report_sorted (l : Latency) (hnd : (mapKeys l).Nodup) :
    List.Chain' (fun a b => cmpStr a b = Ordering.lt)
      ((renderPairs l).map Prod.fst) ∧
    ((renderPairs l).map Prod.fst).Nodup ∧
    renderPairs l = renderPairs l := by
  have hperm : ((sortByName l.element_totals).map
      fun p : Element × Count => p.1.name).Perm (mapKeys l) :=
    (sortByName_perm l.element_totals).map _
  have hnd2 := hperm.nodup_iff.mpr hnd
  have hchain := sortByName_chain l.element_totals
  have hneq : List.Chain' (fun p q : Element × Count => p.1.name ≠ q.1.name)
      (sortByName l.element_totals) := by
    have hpw : ((sortByName l.element_totals).map
        fun p : Element × Count => p.1.name).Pairwise (· ≠ ·) := hnd2
    exact (List.chain'_map _).mp hpw.chain'
  have hlt : List.Chain' (fun p q : Element × Count =>
      cmpStr p.1.name q.1.name = Ordering.lt) (sortByName l.element_totals) := by
    refine (chain'_and _ hchain hneq).imp ?_
    intro a b hab
    rcases cmpStr_lt_or_eq_of_not_gt hab.1 with h | h
    · exact h
    · exact absurd h hab.2
  refine ⟨?_, ?_, rfl⟩
  · rw [renderPairs_keys]
    exact (List.chain'_map _).mpr hlt
  · rw [renderPairs_keys]
    exact hnd2

/-- Witness for C6 on a concrete two-key accumulator. -/
theorem report_sorted_witness :
    (mapKeys sampleLatency).Nodup ∧
    (List.Chain' (fun a b => cmpStr a b = Ordering.lt)
      ((renderPairs sampleLatency).map Prod.fst) ∧
    ((renderPairs sampleLatency).map Prod.fst).Nodup ∧
    renderPairs sampleLatency = renderPairs sampleLatency) :=
  ⟨by decide, report_sorted sampleLatency (by decide)⟩

/-- C7: after a completed run (every per-entry step finished without a
panic; intermediate observation points are the same statement with a
prefix of the stream), every stat in the accumulator has count ≥ 1, so
the division `total / count` performed on each rendered entry never
divides by zero.  The `u64` count cannot wrap because the stream is
shorter than `2 ^ 64` entries. -/
theorem counts_positive (opt : Opt) (es : List Entry)
    (hlen : es.length < u64size)
    (hok : (processLog opt es Latency.new).2 = none) :
    (∀ p ∈ (processLog opt es Latency.new).1.element_totals,
      1 ≤ p.2.n ∧ p.2.n ≠ 0) ∧
    (∀ p ∈ sortByName (processLog opt es Latency.new).1.element_totals,
      p.2.n ≠ 0) := by
  have h := processLog_count_inv es Latency.new 0 (by simpa using hlen)
    (by intro p hp; exact absurd hp (List.not_mem_nil p)) hok
  constructor
  · intro p hp
    have h2 := h p hp
    omega
  · intro p hp
    have h2 := h p ((sortByName_perm _).subset hp)
    omega

/-- Witness for C7 on a one-entry stream. -/
theorem counts_positive_witness :
    ([queueEntry 100].length < u64size) ∧
    ((processLog plainOpt [queueEntry 100] Latency.new).2 = none) ∧
    ((∀ p ∈ (processLog plainOpt [queueEntry 100] Latency.new).1.element_totals,
      1 ≤ p.2.n ∧ p.2.n ≠ 0) ∧
    (∀ p ∈ sortByName
        (processLog plainOpt [queueEntry 100] Latency.new).1.element_totals,
      p.2.n ≠ 0)) :=
  ⟨by decide, by decide,
    counts_positive plainOpt [queueEntry 100] (by decide) (by decide)⟩

end GstLatency
